import Mathlib

/-!
Verification of the Euler-angle / quaternion converter
(`src/rotation_converter.py`, class `RotationConverter`).

The Python code computes with IEEE doubles; we embed it over the real
numbers: `np.cos`, `np.sin`, `np.arcsin` become `Real.cos`, `Real.sin`,
`Real.arcsin`, and `np.arctan2 y x` becomes `Complex.arg ⟨x, y⟩`, whose
range is exactly the `(-π, π]` range of `atan2`.  `np.clip` and `np.sign`
are modelled componentwise below.  Division by zero follows Lean's
`x / 0 = 0` convention; where a claim hinges on the float behaviour at a
zero norm this is discussed at the corresponding theorem.
-/

open Real

/-- Data class `EulerAngles` of the source: roll, pitch, yaw in radians. -/
structure EulerAngles where
  roll : ℝ
  pitch : ℝ
  yaw : ℝ

/-- The quaternion `[w, x, y, z]` that the source stores as a numpy array. -/
structure Quat where
  w : ℝ
  x : ℝ
  y : ℝ
  z : ℝ

/-- `np.linalg.norm` of the 4-vector `[w, x, y, z]`. -/
noncomputable def quatNorm (q : Quat) : ℝ :=
  Real.sqrt (q.w ^ 2 + q.x ^ 2 + q.y ^ 2 + q.z ^ 2)

/-- Scalar multiple `k * q` of a quaternion (numpy broadcasting). -/
def quatSmul (k : ℝ) (q : Quat) : Quat :=
  ⟨k * q.w, k * q.x, k * q.y, k * q.z⟩

/-- `np.clip v lo hi`. -/
noncomputable def np_clip (v lo hi : ℝ) : ℝ :=
  max lo (min v hi)

/-- `np.sign v`. -/
noncomputable def np_sign (v : ℝ) : ℝ :=
  if v < 0 then -1 else if 0 < v then 1 else 0

/-- `np.arctan2 yv xv`: the angle of the point `(xv, yv)`, in `(-π, π]`. -/
noncomputable def atan2 (yv xv : ℝ) : ℝ :=
  Complex.arg ⟨xv, yv⟩

/-- `RotationConverter.SINGULARITY_TOLERANCE = 1e-6`. -/
noncomputable def SINGULARITY_TOLERANCE : ℝ := 1 / 1000000

/-- The quaternion `[w, x, y, z]` built from the half-angle products in
`euler_to_quaternion` (lines 32-46 of the source), before normalization.
`θ * 0.5` is written `θ / 2`. -/
noncomputable def eulerQuatRaw (e : EulerAngles) : Quat where
  w := Real.cos (e.roll / 2) * Real.cos (e.pitch / 2) * Real.cos (e.yaw / 2) +
       Real.sin (e.roll / 2) * Real.sin (e.pitch / 2) * Real.sin (e.yaw / 2)
  x := Real.sin (e.roll / 2) * Real.cos (e.pitch / 2) * Real.cos (e.yaw / 2) -
       Real.cos (e.roll / 2) * Real.sin (e.pitch / 2) * Real.sin (e.yaw / 2)
  y := Real.cos (e.roll / 2) * Real.sin (e.pitch / 2) * Real.cos (e.yaw / 2) +
       Real.sin (e.roll / 2) * Real.cos (e.pitch / 2) * Real.sin (e.yaw / 2)
  z := Real.cos (e.roll / 2) * Real.cos (e.pitch / 2) * Real.sin (e.yaw / 2) -
       Real.sin (e.roll / 2) * Real.sin (e.pitch / 2) * Real.cos (e.yaw / 2)

/-- `RotationConverter.euler_to_quaternion`: the raw quaternion divided by
its Euclidean norm (`q / np.linalg.norm(q)`). -/
noncomputable def euler_to_quaternion (e : EulerAngles) : Quat :=
  ⟨(eulerQuatRaw e).w / quatNorm (eulerQuatRaw e),
   (eulerQuatRaw e).x / quatNorm (eulerQuatRaw e),
   (eulerQuatRaw e).y / quatNorm (eulerQuatRaw e),
   (eulerQuatRaw e).z / quatNorm (eulerQuatRaw e)⟩

/-- Line 58 of the source: `q = q / np.linalg.norm(q)`. -/
noncomputable def qnormalized (q : Quat) : Quat :=
  ⟨q.w / quatNorm q, q.x / quatNorm q, q.y / quatNorm q, q.z / quatNorm q⟩

/-- Line 63: `t0 = 2.0 * (w * y - z * x)` on the normalized components. -/
noncomputable def t0raw (q : Quat) : ℝ :=
  2 * ((qnormalized q).w * (qnormalized q).y - (qnormalized q).z * (qnormalized q).x)

/-- Line 67: `t0 = np.clip(t0, -1.0, 1.0)`. -/
noncomputable def t0c (q : Quat) : ℝ :=
  np_clip (t0raw q) (-1) 1

/-- `RotationConverter.quaternion_to_euler` (lines 50-92): normalize,
clamp `t0`, then branch on the gimbal-lock test
`np.abs(t0) > 1.0 - SINGULARITY_TOLERANCE`. -/
noncomputable def quaternion_to_euler (q : Quat) : EulerAngles :=
  if |t0c q| > 1 - SINGULARITY_TOLERANCE then
    { roll := 0
      pitch := Real.pi / 2 * np_sign (t0c q)
      yaw := 2 * atan2 (qnormalized q).x (qnormalized q).w }
  else
    { roll := atan2 (2 * ((qnormalized q).w * (qnormalized q).x +
                          (qnormalized q).y * (qnormalized q).z))
                    (1 - 2 * ((qnormalized q).x * (qnormalized q).x +
                              (qnormalized q).y * (qnormalized q).y))
      pitch := Real.arcsin (t0c q)
      yaw := atan2 (2 * ((qnormalized q).w * (qnormalized q).z +
                         (qnormalized q).x * (qnormalized q).y))
                   (1 - 2 * ((qnormalized q).y * (qnormalized q).y +
                             (qnormalized q).z * (qnormalized q).z)) }

/-! ### Basic helper lemmas -/

/-- Full-angle sine from the half angle. -/
lemma sin_full (x : ℝ) : Real.sin x = 2 * Real.sin (x / 2) * Real.cos (x / 2) := by
  have h : x = 2 * (x / 2) := by ring
  conv_lhs => rw [h, Real.sin_two_mul]

/-- Full-angle cosine from the half angle. -/
lemma cos_full (x : ℝ) : Real.cos x = 1 - 2 * Real.sin (x / 2) ^ 2 := by
  have h : x = 2 * (x / 2) := by ring
  have h2 := Real.sin_sq_add_cos_sq (x / 2)
  conv_lhs => rw [h, Real.cos_two_mul]
  linarith

/-- The raw quaternion of `euler_to_quaternion` has unit norm: its squared
norm is `(sr²+cr²)(sp²+cp²)(sy²+cy²) = 1`. -/
lemma eulerQuatRaw_sq_norm (e : EulerAngles) :
    (eulerQuatRaw e).w ^ 2 + (eulerQuatRaw e).x ^ 2 +
    (eulerQuatRaw e).y ^ 2 + (eulerQuatRaw e).z ^ 2 = 1 := by
  have h1 := Real.sin_sq_add_cos_sq (e.roll / 2)
  have h2 := Real.sin_sq_add_cos_sq (e.pitch / 2)
  have h3 := Real.sin_sq_add_cos_sq (e.yaw / 2)
  simp only [eulerQuatRaw]
  linear_combination
    ((Real.sin (e.pitch / 2) ^ 2 + Real.cos (e.pitch / 2) ^ 2) *
     (Real.sin (e.yaw / 2) ^ 2 + Real.cos (e.yaw / 2) ^ 2)) * h1 +
    (Real.sin (e.yaw / 2) ^ 2 + Real.cos (e.yaw / 2) ^ 2) * h2 + h3

lemma quatNorm_eulerQuatRaw (e : EulerAngles) : quatNorm (eulerQuatRaw e) = 1 := by
  rw [quatNorm, eulerQuatRaw_sq_norm, Real.sqrt_one]

/-- Because the raw quaternion already has norm one, the final division in
`euler_to_quaternion` is the identity. -/
lemma euler_to_quaternion_eq_raw (e : EulerAngles) :
    euler_to_quaternion e = eulerQuatRaw e := by
  simp [euler_to_quaternion, quatNorm_eulerQuatRaw]

lemma quatNorm_euler_to_quaternion (e : EulerAngles) :
    quatNorm (euler_to_quaternion e) = 1 := by
  rw [euler_to_quaternion_eq_raw, quatNorm_eulerQuatRaw]

/-- Renormalizing the (already unit) output of `euler_to_quaternion`
changes nothing. -/
lemma qnormalized_euler_to_quaternion (e : EulerAngles) :
    qnormalized (euler_to_quaternion e) = eulerQuatRaw e := by
  rw [euler_to_quaternion_eq_raw]
  simp [qnormalized, quatNorm_eulerQuatRaw]

lemma np_clip_of_mem {v lo hi : ℝ} (h1 : lo ≤ v) (h2 : v ≤ hi) :
    np_clip v lo hi = v := by
  rw [np_clip, min_eq_left h2, max_eq_right h1]

/-! ### The rotation-matrix entries recovered from the raw quaternion

Writing `cr, sr, cp, sp, cy, sy` for the half-angle cosines/sines, the four
`atan2` arguments and the `arcsin` argument of the regular branch reduce to
sines and cosines of the full angles. -/

lemma t0raw_euler (e : EulerAngles) :
    t0raw (euler_to_quaternion e) = Real.sin e.pitch := by
  rw [t0raw, qnormalized_euler_to_quaternion, sin_full]
  have h1 := Real.sin_sq_add_cos_sq (e.roll / 2)
  have h3 := Real.sin_sq_add_cos_sq (e.yaw / 2)
  simp only [eulerQuatRaw]
  linear_combination
    (2 * Real.sin (e.pitch / 2) * Real.cos (e.pitch / 2) *
      (Real.sin (e.yaw / 2) ^ 2 + Real.cos (e.yaw / 2) ^ 2)) * h1 +
    (2 * Real.sin (e.pitch / 2) * Real.cos (e.pitch / 2)) * h3

lemma rollNum_euler (e : EulerAngles) :
    2 * ((eulerQuatRaw e).w * (eulerQuatRaw e).x +
         (eulerQuatRaw e).y * (eulerQuatRaw e).z) =
      Real.cos e.pitch * Real.sin e.roll := by
  rw [sin_full, cos_full]
  have h2 := Real.sin_sq_add_cos_sq (e.pitch / 2)
  have h3 := Real.sin_sq_add_cos_sq (e.yaw / 2)
  simp only [eulerQuatRaw]
  linear_combination
    (2 * Real.cos (e.roll / 2) * Real.sin (e.roll / 2) *
      (Real.sin (e.yaw / 2) ^ 2 + Real.cos (e.yaw / 2) ^ 2)) * h2 +
    (2 * Real.cos (e.roll / 2) * Real.sin (e.roll / 2) *
      (1 - 2 * Real.sin (e.pitch / 2) ^ 2)) * h3

lemma rollDen_euler (e : EulerAngles) :
    1 - 2 * ((eulerQuatRaw e).x * (eulerQuatRaw e).x +
             (eulerQuatRaw e).y * (eulerQuatRaw e).y) =
      Real.cos e.pitch * Real.cos e.roll := by
  rw [cos_full, cos_full]
  have h1 := Real.sin_sq_add_cos_sq (e.roll / 2)
  have h2 := Real.sin_sq_add_cos_sq (e.pitch / 2)
  have h3 := Real.sin_sq_add_cos_sq (e.yaw / 2)
  simp only [eulerQuatRaw]
  linear_combination
    (-2 * Real.sin (e.pitch / 2) ^ 2) * h1 +
    (-2 * Real.sin (e.roll / 2) ^ 2) * h2 +
    (-2 * (Real.sin (e.roll / 2) ^ 2 * Real.cos (e.pitch / 2) ^ 2 +
           Real.cos (e.roll / 2) ^ 2 * Real.sin (e.pitch / 2) ^ 2)) * h3

lemma yawNum_euler (e : EulerAngles) :
    2 * ((eulerQuatRaw e).w * (eulerQuatRaw e).z +
         (eulerQuatRaw e).x * (eulerQuatRaw e).y) =
      Real.cos e.pitch * Real.sin e.yaw := by
  rw [sin_full, cos_full]
  have h1 := Real.sin_sq_add_cos_sq (e.roll / 2)
  have h2 := Real.sin_sq_add_cos_sq (e.pitch / 2)
  simp only [eulerQuatRaw]
  linear_combination
    (2 * Real.cos (e.yaw / 2) * Real.sin (e.yaw / 2) *
      (1 - 2 * Real.sin (e.pitch / 2) ^ 2)) * h1 +
    (2 * Real.cos (e.yaw / 2) * Real.sin (e.yaw / 2) *
      (Real.sin (e.roll / 2) ^ 2 + Real.cos (e.roll / 2) ^ 2)) * h2

lemma yawDen_euler (e : EulerAngles) :
    1 - 2 * ((eulerQuatRaw e).y * (eulerQuatRaw e).y +
             (eulerQuatRaw e).z * (eulerQuatRaw e).z) =
      Real.cos e.pitch * Real.cos e.yaw := by
  rw [cos_full, cos_full]
  have h1 := Real.sin_sq_add_cos_sq (e.roll / 2)
  have h2 := Real.sin_sq_add_cos_sq (e.pitch / 2)
  have h3 := Real.sin_sq_add_cos_sq (e.yaw / 2)
  simp only [eulerQuatRaw]
  linear_combination
    (-2 * (Real.sin (e.pitch / 2) ^ 2 * Real.cos (e.yaw / 2) ^ 2 +
           Real.cos (e.pitch / 2) ^ 2 * Real.sin (e.yaw / 2) ^ 2)) * h1 +
    (-2 * Real.sin (e.yaw / 2) ^ 2) * h2 +
    (-2 * Real.sin (e.pitch / 2) ^ 2) * h3

lemma t0c_euler (e : EulerAngles) :
    t0c (euler_to_quaternion e) = Real.sin e.pitch := by
  rw [t0c, t0raw_euler]
  exact np_clip_of_mem (Real.neg_one_le_sin _) (Real.sin_le_one _)

/-! ### `atan2` facts -/

/-- `atan2` recovers an angle of `(-π, π]` from a positively scaled
sine/cosine pair. -/
lemma atan2_mul_cos_sin {a θ : ℝ} (ha : 0 < a) (hθ : θ ∈ Set.Ioc (-π) π) :
    atan2 (a * Real.sin θ) (a * Real.cos θ) = θ := by
  have h : (⟨a * Real.cos θ, a * Real.sin θ⟩ : ℂ) =
      (a : ℂ) * (Complex.cos θ + Complex.sin θ * Complex.I) := by
    apply Complex.ext <;>
      simp [← Complex.ofReal_cos, ← Complex.ofReal_sin]
  rw [atan2, h, Complex.arg_real_mul _ ha]
  exact Complex.arg_cos_add_sin_mul_I hθ

lemma atan2_zero_of_pos {x : ℝ} (hx : 0 < x) : atan2 0 x = 0 := by
  have h : (⟨x, 0⟩ : ℂ) = (x : ℝ) := by
    apply Complex.ext <;> simp
  rw [atan2, h]
  exact Complex.arg_ofReal_of_nonneg hx.le

lemma atan2_zero_of_neg {x : ℝ} (hx : x < 0) : atan2 0 x = π := by
  have h : (⟨x, 0⟩ : ℂ) = (x : ℝ) := by
    apply Complex.ext <;> simp
  rw [atan2, h]
  exact Complex.arg_ofReal_of_neg hx

lemma atan2_mem_Ioc (yv xv : ℝ) : atan2 yv xv ∈ Set.Ioc (-π) π :=
  Complex.arg_mem_Ioc _

/-! ### The regular branch of the round trip -/

/-- `|sin p| ≤ cos (3/2000) ≤ 1 - 1e-6` for `|p| ≤ π/2 - 3/2000`: a pitch
that keeps this margin from the poles always lands in the regular branch. -/
lemma abs_sin_le_margin {p : ℝ} (hp : |p| ≤ π / 2 - 3 / 2000) :
    |Real.sin p| ≤ 1 - 1 / 1000000 := by
  obtain ⟨hp1, hp2⟩ := abs_le.mp hp
  have hπ : (3 : ℝ) / 2000 < π / 2 := by
    have := Real.pi_gt_three
    linarith
  have hmono := Real.strictMonoOn_sin.monotoneOn
  have hmem : p ∈ Set.Icc (-(π / 2)) (π / 2) := ⟨by linarith, by linarith⟩
  have h1 : Real.sin p ≤ Real.sin (π / 2 - 3 / 2000) :=
    hmono hmem ⟨by linarith, by linarith⟩ hp2
  have h2 : Real.sin (-(π / 2 - 3 / 2000)) ≤ Real.sin p :=
    hmono ⟨by linarith, by linarith⟩ hmem (by linarith)
  rw [Real.sin_pi_div_two_sub] at h1
  rw [Real.sin_neg, Real.sin_pi_div_two_sub] at h2
  have hcos : Real.cos (3 / 2000 : ℝ) ≤ 1 - 1 / 1000000 := by
    have hs : (3 / 4000 : ℝ) - (3 / 4000) ^ 3 / 4 < Real.sin (3 / 4000) :=
      Real.sin_gt_sub_cube (by norm_num) (by norm_num)
    have hfull : Real.cos (3 / 2000 : ℝ) = 1 - 2 * Real.sin ((3 / 2000 : ℝ) / 2) ^ 2 :=
      cos_full _
    have h34 : ((3 / 2000 : ℝ) / 2) = 3 / 4000 := by norm_num
    rw [hfull, h34]
    nlinarith [hs]
  rw [abs_le]
  constructor <;> linarith

/-- Evaluation of the whole round trip in the regular branch: each returned
angle is an `atan2`/`arcsin` of full-angle sines and cosines. -/
lemma round_trip_regular_eval (e : EulerAngles)
    (hs : |Real.sin e.pitch| ≤ 1 - 1 / 1000000) :
    quaternion_to_euler (euler_to_quaternion e) =
      ⟨atan2 (Real.cos e.pitch * Real.sin e.roll) (Real.cos e.pitch * Real.cos e.roll),
       Real.arcsin (Real.sin e.pitch),
       atan2 (Real.cos e.pitch * Real.sin e.yaw) (Real.cos e.pitch * Real.cos e.yaw)⟩ := by
  have hbranch : ¬ (|t0c (euler_to_quaternion e)| > 1 - SINGULARITY_TOLERANCE) := by
    rw [t0c_euler, SINGULARITY_TOLERANCE]
    push_neg
    exact hs
  rw [quaternion_to_euler, if_neg hbranch, qnormalized_euler_to_quaternion,
    rollNum_euler, rollDen_euler, yawNum_euler, yawDen_euler, t0c_euler]

/-- Evaluation of `quaternion_to_euler` when the gimbal-lock test fires. -/
lemma quaternion_to_euler_singular {q : Quat}
    (h : |t0c q| > 1 - SINGULARITY_TOLERANCE) :
    quaternion_to_euler q =
      ⟨0, π / 2 * np_sign (t0c q),
       2 * atan2 (qnormalized q).x (qnormalized q).w⟩ := by
  rw [quaternion_to_euler, if_pos h]

/-- `np.linalg.norm` is absolutely homogeneous. -/
lemma quatNorm_smul (k : ℝ) (q : Quat) :
    quatNorm (quatSmul k q) = |k| * quatNorm q := by
  rw [quatSmul, quatNorm, quatNorm]
  rw [show (k * q.w) ^ 2 + (k * q.x) ^ 2 + (k * q.y) ^ 2 + (k * q.z) ^ 2 =
        k ^ 2 * (q.w ^ 2 + q.x ^ 2 + q.y ^ 2 + q.z ^ 2) by ring]
  rw [Real.sqrt_mul (sq_nonneg k), Real.sqrt_sq_eq_abs]

/-- Scaling by a positive factor does not change the normalized quaternion. -/
lemma qnormalized_smul {k : ℝ} (hk : 0 < k) (q : Quat) :
    qnormalized (quatSmul k q) = qnormalized q := by
  have hn : quatNorm (quatSmul k q) = k * quatNorm q := by
    rw [quatNorm_smul, abs_of_pos hk]
  rw [qnormalized, qnormalized, hn]
  simp only [quatSmul]
  rw [Quat.mk.injEq]
  exact ⟨mul_div_mul_left _ _ (ne_of_gt hk), mul_div_mul_left _ _ (ne_of_gt hk),
    mul_div_mul_left _ _ (ne_of_gt hk), mul_div_mul_left _ _ (ne_of_gt hk)⟩

lemma sqrt_two_mul_self : Real.sqrt 2 * Real.sqrt 2 = 2 :=
  Real.mul_self_sqrt (by norm_num)

lemma sqrt_two_pos : (0 : ℝ) < Real.sqrt 2 :=
  Real.sqrt_pos.mpr (by norm_num)

/-- The quaternion `[1, 0, 1, 0]` normalizes to `[1/√2, 0, 1/√2, 0]`. -/
lemma qnormalized_q1 :
    qnormalized ⟨1, 0, 1, 0⟩ =
      ⟨1 / Real.sqrt 2, 0, 1 / Real.sqrt 2, 0⟩ := by
  have hn : quatNorm ⟨1, 0, 1, 0⟩ = Real.sqrt 2 := by
    rw [quatNorm]
    norm_num
  rw [qnormalized, hn]
  norm_num

/-- `[1, 0, 1, 0]` lies at the north-pole gimbal lock: its clamped `t0` is `1`. -/
lemma t0c_q1 : t0c ⟨1, 0, 1, 0⟩ = 1 := by
  rw [t0c, t0raw, qnormalized_q1]
  show np_clip (2 * (1 / Real.sqrt 2 * (1 / Real.sqrt 2) - 0 * 0)) (-1) 1 = 1
  rw [show (2 : ℝ) * (1 / Real.sqrt 2 * (1 / Real.sqrt 2) - 0 * 0) = 1 by
    rw [div_mul_div_comm, one_mul, sqrt_two_mul_self]
    norm_num]
  exact np_clip_of_mem (by norm_num) le_rfl

lemma quaternion_to_euler_q1 :
    quaternion_to_euler ⟨1, 0, 1, 0⟩ = ⟨0, π / 2, 0⟩ := by
  have hb : |t0c ⟨1, 0, 1, 0⟩| > 1 - SINGULARITY_TOLERANCE := by
    rw [t0c_q1, SINGULARITY_TOLERANCE]
    norm_num
  rw [quaternion_to_euler_singular hb, t0c_q1, qnormalized_q1]
  have hsg : np_sign 1 = 1 := by
    rw [np_sign, if_neg (by norm_num), if_pos (by norm_num)]
  have hat : atan2 (⟨1 / Real.sqrt 2, 0, 1 / Real.sqrt 2, 0⟩ : Quat).x
      (⟨1 / Real.sqrt 2, 0, 1 / Real.sqrt 2, 0⟩ : Quat).w = 0 := by
    show atan2 0 (1 / Real.sqrt 2) = 0
    exact atan2_zero_of_pos (by positivity)
  rw [hsg, hat]
  norm_num

/-- `[-1, 0, -1, 0]` is the negation of `[1, 0, 1, 0]`; it also sits at the
lock, but its singular-branch yaw is `2π` instead of `0`. -/
lemma qnormalized_q1neg :
    qnormalized ⟨-1, 0, -1, 0⟩ =
      ⟨-(1 / Real.sqrt 2), 0, -(1 / Real.sqrt 2), 0⟩ := by
  have hn : quatNorm ⟨-1, 0, -1, 0⟩ = Real.sqrt 2 := by
    rw [quatNorm]
    norm_num
  rw [qnormalized, hn]
  rw [Quat.mk.injEq]
  refine ⟨?_, ?_, ?_, ?_⟩ <;> norm_num [neg_div]

lemma t0c_q1neg : t0c ⟨-1, 0, -1, 0⟩ = 1 := by
  rw [t0c, t0raw, qnormalized_q1neg]
  show np_clip (2 * (-(1 / Real.sqrt 2) * -(1 / Real.sqrt 2) - 0 * 0)) (-1) 1 = 1
  rw [show (2 : ℝ) * (-(1 / Real.sqrt 2) * -(1 / Real.sqrt 2) - 0 * 0) = 1 by
    rw [neg_mul_neg, div_mul_div_comm, one_mul, sqrt_two_mul_self]
    norm_num]
  exact np_clip_of_mem (by norm_num) le_rfl

lemma quaternion_to_euler_q1neg :
    quaternion_to_euler ⟨-1, 0, -1, 0⟩ = ⟨0, π / 2, 2 * π⟩ := by
  have hb : |t0c ⟨-1, 0, -1, 0⟩| > 1 - SINGULARITY_TOLERANCE := by
    rw [t0c_q1neg, SINGULARITY_TOLERANCE]
    norm_num
  rw [quaternion_to_euler_singular hb, t0c_q1neg, qnormalized_q1neg]
  have hsg : np_sign 1 = 1 := by
    rw [np_sign, if_neg (by norm_num), if_pos (by norm_num)]
  have hat : atan2 (⟨-(1 / Real.sqrt 2), 0, -(1 / Real.sqrt 2), 0⟩ : Quat).x
      (⟨-(1 / Real.sqrt 2), 0, -(1 / Real.sqrt 2), 0⟩ : Quat).w = π := by
    show atan2 0 (-(1 / Real.sqrt 2)) = π
    exact atan2_zero_of_neg (by simp [sqrt_two_pos])
  rw [hsg, hat]
  norm_num

/-! ### Claim C1: round trip in the regular case -/

/-- **C1, counterexample.** The claim quantifies over *every* Euler triple
whose pitch keeps a margin `δ > 1e-6` from `±π/2`.  The triple
`(roll, pitch, yaw) = (2π, 0, 0)` satisfies that pitch condition (with
margin `δ = 1`), yet the round trip returns `roll = 0`, which differs from
the input roll `2π` by far more than the claimed `1e-5` tolerance. -/
theorem c1_counterexample :
    (∃ δ : ℝ, δ > 1 / 1000000 ∧
        -(π / 2) + δ < (⟨2 * π, 0, 0⟩ : EulerAngles).pitch ∧
        (⟨2 * π, 0, 0⟩ : EulerAngles).pitch < π / 2 - δ) ∧
    ¬ |(quaternion_to_euler (euler_to_quaternion ⟨2 * π, 0, 0⟩)).roll -
        (⟨2 * π, 0, 0⟩ : EulerAngles).roll| ≤ 1 / 100000 := by
  have hπ := Real.pi_gt_three
  constructor
  · exact ⟨1, by norm_num, by show -(π / 2) + 1 < 0; linarith,
      by show (0 : ℝ) < π / 2 - 1; linarith⟩
  · have hs : |Real.sin (⟨2 * π, 0, 0⟩ : EulerAngles).pitch| ≤ 1 - 1 / 1000000 := by
      show |Real.sin 0| ≤ 1 - 1 / 1000000
      rw [Real.sin_zero, abs_zero]
      norm_num
    rw [round_trip_regular_eval _ hs]
    show ¬ |atan2 (Real.cos 0 * Real.sin (2 * π)) (Real.cos 0 * Real.cos (2 * π)) -
      2 * π| ≤ 1 / 100000
    rw [Real.cos_zero, Real.sin_two_pi, Real.cos_two_pi, mul_zero, mul_one,
      atan2_zero_of_pos one_pos, zero_sub, abs_neg,
      abs_of_pos (by linarith : (0 : ℝ) < 2 * π)]
    push_neg
    linarith

/-- **C1, amended.** Round trip in the regular case, restricted to inputs
the algorithm can actually reproduce: roll and yaw in the `atan2` range
`(-π, π]`, and pitch far enough from `±π/2` that `|sin pitch| ≤ 1 - 1e-6`
keeps the conversion in the regular branch (margin `δ = 3/2000`; a margin
of only `1e-6` does not suffice, since `sin (π/2 - 1e-6) > 1 - 1e-6`
triggers the gimbal-lock branch, which zeroes the roll).  On this domain
the round trip is exact, hence certainly within `1e-5` componentwise. -/
theorem c1_round_trip_regular (e : EulerAngles)
    (hr1 : -π < e.roll) (hr2 : e.roll ≤ π)
    (hp : |e.pitch| ≤ π / 2 - 3 / 2000)
    (hy1 : -π < e.yaw) (hy2 : e.yaw ≤ π) :
    quaternion_to_euler (euler_to_quaternion e) = e := by
  obtain ⟨hp1, hp2⟩ := abs_le.mp hp
  have hπ : (3 : ℝ) / 2000 < π / 2 := by
    have := Real.pi_gt_three
    linarith
  have hcos : 0 < Real.cos e.pitch :=
    Real.cos_pos_of_mem_Ioo ⟨by linarith, by linarith⟩
  rw [round_trip_regular_eval e (abs_sin_le_margin hp)]
  obtain ⟨r, p, y⟩ := e
  simp only [EulerAngles.mk.injEq]
  refine ⟨?_, ?_, ?_⟩
  · exact atan2_mul_cos_sin hcos (Set.mem_Ioc.mpr ⟨hr1, hr2⟩)
  · exact Real.arcsin_sin (by linarith) (by linarith)
  · exact atan2_mul_cos_sin hcos (Set.mem_Ioc.mpr ⟨hy1, hy2⟩)

/-- Witness for C1: the amended theorem applied at the concrete input
`(0, 0, 0)`. -/
theorem c1_round_trip_regular_witness :
    quaternion_to_euler (euler_to_quaternion ⟨0, 0, 0⟩) = ⟨0, 0, 0⟩ := by
  have hπ := Real.pi_gt_three
  exact c1_round_trip_regular ⟨0, 0, 0⟩
    (by show -π < (0 : ℝ); linarith)
    (by show (0 : ℝ) ≤ π; linarith)
    (by show |(0 : ℝ)| ≤ π / 2 - 3 / 2000; rw [abs_zero]; linarith)
    (by show -π < (0 : ℝ); linarith)
    (by show (0 : ℝ) ≤ π; linarith)

/-! ### Claim C6: unit-norm postcondition of `euler_to_quaternion` -/

/-- **C6.** For every Euler triple the output of `euler_to_quaternion` has
Euclidean norm exactly `1` in exact arithmetic (so certainly within the
claimed `1e-9`), and the only conceivable failure, a zero-norm division,
cannot arise. -/
theorem c6_unit_norm (e : EulerAngles) :
    quatNorm (euler_to_quaternion e) = 1 ∧
    |quatNorm (euler_to_quaternion e) - 1| ≤ 1 / 1000000000 ∧
    quatNorm (eulerQuatRaw e) ≠ 0 := by
  refine ⟨quatNorm_euler_to_quaternion e, ?_, ?_⟩
  · rw [quatNorm_euler_to_quaternion, sub_self, abs_zero]
    norm_num
  · rw [quatNorm_eulerQuatRaw]
    norm_num

/-! ### Claim C7: the clamp protects the arcsin step -/

/-- **C7.** `np.clip (t0, -1, 1)` always lands in `[-1, 1]` — including on
the synthetic overshoot values `±1.0000001` — and the value `t0c q` that
`quaternion_to_euler` passes to `arcsin` therefore always lies in the
domain `[-1, 1]` of `arcsin`, for every input quaternion. -/
theorem c7_clamp_protects_arcsin :
    (∀ t : ℝ, -1 ≤ np_clip t (-1) 1 ∧ np_clip t (-1) 1 ≤ 1) ∧
    np_clip (10000001 / 10000000) (-1) 1 = 1 ∧
    np_clip (-(10000001 / 10000000)) (-1) 1 = -1 ∧
    ∀ q : Quat, -1 ≤ t0c q ∧ t0c q ≤ 1 := by
  have hbounds : ∀ t : ℝ, -1 ≤ np_clip t (-1) 1 ∧ np_clip t (-1) 1 ≤ 1 := by
    intro t
    constructor
    · exact le_max_left _ _
    · exact max_le (by norm_num) (min_le_right _ _)
  refine ⟨hbounds, ?_, ?_, fun q => hbounds (t0raw q)⟩
  · rw [np_clip, min_eq_right (by norm_num : (1 : ℝ) ≤ 10000001 / 10000000)]
    exact max_eq_right (by norm_num)
  · rw [np_clip, min_eq_left (by norm_num : (-(10000001 / 10000000) : ℝ) ≤ 1)]
    exact max_eq_left (by norm_num)

/-! ### Claim C10: identity element -/

/-- **C10.** `euler_to_quaternion` maps `(0, 0, 0)` to exactly the identity
quaternion `(1, 0, 0, 0)`. -/
theorem c10_identity : euler_to_quaternion ⟨0, 0, 0⟩ = ⟨1, 0, 0, 0⟩ := by
  rw [euler_to_quaternion_eq_raw]
  simp [eulerQuatRaw]

/-! ### Claim C3: behaviour on the zero quaternion -/

/-- **C3.** The spec demands an explicit domain-error failure on the zero
quaternion, but `quaternion_to_euler` has no failure path at all: it
divides by the zero norm unconditionally and falls through to the regular
branch.  In this exact-arithmetic embedding (`x / 0 = 0`) the call returns
the plain value `(0, 0, 0)`; the float code correspondingly returns
`EulerAngles(nan, nan, nan)` without raising — either way, no error. -/
theorem c3_zero_quaternion_no_failure :
    quaternion_to_euler ⟨0, 0, 0, 0⟩ = ⟨0, 0, 0⟩ := by
  have hn : qnormalized ⟨0, 0, 0, 0⟩ = ⟨0, 0, 0, 0⟩ := by
    rw [qnormalized, quatNorm]
    norm_num
  have ht : t0c ⟨0, 0, 0, 0⟩ = 0 := by
    rw [t0c, t0raw, hn]
    show np_clip (2 * (0 * 0 - 0 * 0)) (-1) 1 = 0
    rw [show (2 : ℝ) * (0 * 0 - 0 * 0) = 0 by ring]
    exact np_clip_of_mem (by norm_num) (by norm_num)
  have hb : ¬ (|t0c ⟨0, 0, 0, 0⟩| > 1 - SINGULARITY_TOLERANCE) := by
    rw [ht, SINGULARITY_TOLERANCE]
    norm_num
  rw [quaternion_to_euler, if_neg hb, hn, ht]
  show (⟨atan2 (2 * (0 * 0 + 0 * 0)) (1 - 2 * (0 * 0 + 0 * 0)), Real.arcsin 0,
    atan2 (2 * (0 * 0 + 0 * 0)) (1 - 2 * (0 * 0 + 0 * 0))⟩ : EulerAngles) = ⟨0, 0, 0⟩
  rw [show (2 : ℝ) * (0 * 0 + 0 * 0) = 0 by ring]
  norm_num [Real.arcsin_zero, atan2_zero_of_pos one_pos]

/-! ### Claim C4: scale invariance of `quaternion_to_euler` -/

/-- **C4, counterexample.** The claim asserts scale invariance for *every*
nonzero scalar `k`.  For `k = -1` and the gimbal-lock quaternion
`[1, 0, 1, 0]` the two results differ in yaw by `2π` (`0` versus `2π`),
far beyond any tolerance: negating the quaternion flips the sign of the
`w` fed to the singular-branch `atan2`, shifting the yaw by `2π`. -/
theorem c4_counterexample :
    (⟨1, 0, 1, 0⟩ : Quat) ≠ ⟨0, 0, 0, 0⟩ ∧ (-1 : ℝ) ≠ 0 ∧
    (quaternion_to_euler (quatSmul (-1) ⟨1, 0, 1, 0⟩)).yaw = 2 * π ∧
    (quaternion_to_euler ⟨1, 0, 1, 0⟩).yaw = 0 ∧
    ¬ |(quaternion_to_euler (quatSmul (-1) ⟨1, 0, 1, 0⟩)).yaw -
        (quaternion_to_euler ⟨1, 0, 1, 0⟩).yaw| ≤ 1 / 100000 := by
  have hsm : quatSmul (-1) (⟨1, 0, 1, 0⟩ : Quat) = ⟨-1, 0, -1, 0⟩ := by
    rw [quatSmul]
    norm_num
  have h1 : (quaternion_to_euler (quatSmul (-1) ⟨1, 0, 1, 0⟩)).yaw = 2 * π := by
    rw [hsm, quaternion_to_euler_q1neg]
  have h2 : (quaternion_to_euler ⟨1, 0, 1, 0⟩).yaw = 0 := by
    rw [quaternion_to_euler_q1]
  refine ⟨?_, by norm_num, h1, h2, ?_⟩
  · intro h
    exact one_ne_zero (congrArg Quat.w h)
  · rw [h1, h2, sub_zero, abs_of_pos (by positivity)]
    have := Real.pi_gt_three
    push_neg
    linarith

/-- **C4, amended.** Scale invariance does hold — exactly, not merely
within tolerance — for every *positive* scalar `k`: normalization erases
the scale.  (For negative `k` it can fail only in the singular branch, as
the counterexample shows.) -/
theorem c4_scale_invariance_pos (q : Quat) (k : ℝ)
    (_hq : q ≠ ⟨0, 0, 0, 0⟩) (hk : 0 < k) :
    quaternion_to_euler (quatSmul k q) = quaternion_to_euler q := by
  simp only [quaternion_to_euler, t0c, t0raw, qnormalized_smul hk]

/-- Witness for C4: doubling the identity quaternion leaves the conversion
output unchanged. -/
theorem c4_scale_invariance_pos_witness :
    quaternion_to_euler (quatSmul 2 ⟨1, 0, 0, 0⟩) = quaternion_to_euler ⟨1, 0, 0, 0⟩ :=
  c4_scale_invariance_pos ⟨1, 0, 0, 0⟩ 2
    (fun h => one_ne_zero (congrArg Quat.w h)) (by norm_num)

/-! ### Claim C5: definition of the singular branch -/

/-- **C5.** Whenever the clamped `t0` of the normalized input exceeds
`1 - 1e-6` in absolute value, the function returns exactly
`roll = 0`, `pitch = (π/2)·sign(t0)`, and `yaw = 2·atan2(x, w)` computed
on the normalized components. -/
theorem c5_singular_branch (q : Quat)
    (h : |t0c q| > 1 - SINGULARITY_TOLERANCE) :
    quaternion_to_euler q =
      ⟨0, π / 2 * np_sign (t0c q),
       2 * atan2 (qnormalized q).x (qnormalized q).w⟩ :=
  quaternion_to_euler_singular h

/-- Witness for C5: the lock quaternion `[1, 0, 1, 0]` satisfies the branch
condition, and the theorem evaluates there. -/
theorem c5_singular_branch_witness :
    |t0c ⟨1, 0, 1, 0⟩| > 1 - SINGULARITY_TOLERANCE ∧
    quaternion_to_euler ⟨1, 0, 1, 0⟩ =
      ⟨0, π / 2 * np_sign (t0c ⟨1, 0, 1, 0⟩),
       2 * atan2 (qnormalized ⟨1, 0, 1, 0⟩).x (qnormalized ⟨1, 0, 1, 0⟩).w⟩ := by
  have hb : |t0c ⟨1, 0, 1, 0⟩| > 1 - SINGULARITY_TOLERANCE := by
    rw [t0c_q1, SINGULARITY_TOLERANCE]
    norm_num
  exact ⟨hb, c5_singular_branch _ hb⟩

/-! ### Claim C8: gimbal-lock fixed points at both poles -/

/-- **C8.** The triples `(0, ±π/2, 0)` round-trip exactly: the north pole
returns `(0, π/2, 0)` (pitch exactly `π/2`, roll exactly `0`), the south
pole returns `(0, -π/2, 0)`, and at the south pole the clamped `t0` is
negative, so `sign(t0)` is correctly negative. -/
theorem c8_gimbal_fixed_points :
    quaternion_to_euler (euler_to_quaternion ⟨0, π / 2, 0⟩) = ⟨0, π / 2, 0⟩ ∧
    quaternion_to_euler (euler_to_quaternion ⟨0, -(π / 2), 0⟩) = ⟨0, -(π / 2), 0⟩ ∧
    t0c (euler_to_quaternion ⟨0, -(π / 2), 0⟩) < 0 := by
  have hcos4 : (0 : ℝ) < Real.cos (π / 4) := by
    rw [Real.cos_pi_div_four]
    positivity
  have hsg1 : np_sign 1 = 1 := by
    rw [np_sign, if_neg (by norm_num), if_pos (by norm_num)]
  have hsgm1 : np_sign (-1) = -1 := by
    rw [np_sign, if_pos (by norm_num)]
  have ht1 : t0c (euler_to_quaternion ⟨0, π / 2, 0⟩) = 1 := by
    rw [t0c_euler]
    exact Real.sin_pi_div_two
  have ht2 : t0c (euler_to_quaternion ⟨0, -(π / 2), 0⟩) = -1 := by
    rw [t0c_euler]
    show Real.sin (-(π / 2)) = -1
    rw [Real.sin_neg, Real.sin_pi_div_two]
  refine ⟨?_, ?_, ?_⟩
  · have hb : |t0c (euler_to_quaternion ⟨0, π / 2, 0⟩)| > 1 - SINGULARITY_TOLERANCE := by
      rw [ht1, SINGULARITY_TOLERANCE]
      norm_num
    rw [quaternion_to_euler_singular hb, ht1, qnormalized_euler_to_quaternion]
    have hx : (eulerQuatRaw ⟨0, π / 2, 0⟩).x = 0 := by
      simp [eulerQuatRaw]
    have hw : (eulerQuatRaw ⟨0, π / 2, 0⟩).w = Real.cos (π / 4) := by
      simp [eulerQuatRaw, show (π / 2 / 2 : ℝ) = π / 4 by ring]
    rw [hx, hw, hsg1, atan2_zero_of_pos hcos4]
    norm_num
  · have hb : |t0c (euler_to_quaternion ⟨0, -(π / 2), 0⟩)| > 1 - SINGULARITY_TOLERANCE := by
      rw [ht2, SINGULARITY_TOLERANCE]
      norm_num
    rw [quaternion_to_euler_singular hb, ht2, qnormalized_euler_to_quaternion]
    have hx : (eulerQuatRaw ⟨0, -(π / 2), 0⟩).x = 0 := by
      simp [eulerQuatRaw]
    have hw : (eulerQuatRaw ⟨0, -(π / 2), 0⟩).w = Real.cos (π / 4) := by
      simp [eulerQuatRaw, show (-(π / 2) / 2 : ℝ) = -(π / 4) by ring]
    rw [hx, hw, hsgm1, atan2_zero_of_pos hcos4]
    norm_num
  · rw [ht2]
    norm_num

/-! ### Claim C9: double cover -/

/-- **C9.** Adding `2π` to any single one of the three Euler angles negates
every component of the returned quaternion: the half angle shifts by `π`,
flipping both its sine and cosine, and exactly one such flipped factor
occurs in every product of the quaternion formula. -/
theorem c9_double_cover (e : EulerAngles) :
    euler_to_quaternion ⟨e.roll + 2 * π, e.pitch, e.yaw⟩ =
      quatSmul (-1) (euler_to_quaternion e) ∧
    euler_to_quaternion ⟨e.roll, e.pitch + 2 * π, e.yaw⟩ =
      quatSmul (-1) (euler_to_quaternion e) ∧
    euler_to_quaternion ⟨e.roll, e.pitch, e.yaw + 2 * π⟩ =
      quatSmul (-1) (euler_to_quaternion e) := by
  obtain ⟨r, p, y⟩ := e
  refine ⟨?_, ?_, ?_⟩
  · rw [euler_to_quaternion_eq_raw, euler_to_quaternion_eq_raw]
    have hc : Real.cos ((r + 2 * π) / 2) = -Real.cos (r / 2) := by
      rw [show (r + 2 * π) / 2 = r / 2 + π by ring, Real.cos_add_pi]
    have hs : Real.sin ((r + 2 * π) / 2) = -Real.sin (r / 2) := by
      rw [show (r + 2 * π) / 2 = r / 2 + π by ring, Real.sin_add_pi]
    simp only [eulerQuatRaw, quatSmul]
    rw [hc, hs, Quat.mk.injEq]
    refine ⟨by ring, by ring, by ring, by ring⟩
  · rw [euler_to_quaternion_eq_raw, euler_to_quaternion_eq_raw]
    have hc : Real.cos ((p + 2 * π) / 2) = -Real.cos (p / 2) := by
      rw [show (p + 2 * π) / 2 = p / 2 + π by ring, Real.cos_add_pi]
    have hs : Real.sin ((p + 2 * π) / 2) = -Real.sin (p / 2) := by
      rw [show (p + 2 * π) / 2 = p / 2 + π by ring, Real.sin_add_pi]
    simp only [eulerQuatRaw, quatSmul]
    rw [hc, hs, Quat.mk.injEq]
    refine ⟨by ring, by ring, by ring, by ring⟩
  · rw [euler_to_quaternion_eq_raw, euler_to_quaternion_eq_raw]
    have hc : Real.cos ((y + 2 * π) / 2) = -Real.cos (y / 2) := by
      rw [show (y + 2 * π) / 2 = y / 2 + π by ring, Real.cos_add_pi]
    have hs : Real.sin ((y + 2 * π) / 2) = -Real.sin (y / 2) := by
      rw [show (y + 2 * π) / 2 = y / 2 + π by ring, Real.sin_add_pi]
    simp only [eulerQuatRaw, quatSmul]
    rw [hc, hs, Quat.mk.injEq]
    refine ⟨by ring, by ring, by ring, by ring⟩

/-! ### Claim C2: output ranges of `quaternion_to_euler` -/

/-- The point `(-1/2, 1/2)` sits at angle `3π/4`. -/
lemma atan2_half_neg_half : atan2 (1 / 2) (-(1 / 2)) = 3 * π / 4 := by
  have ha : (0 : ℝ) < Real.sqrt 2 / 2 := by positivity
  have hpi := Real.pi_pos
  have hθ : (3 * π / 4 : ℝ) ∈ Set.Ioc (-π) π := ⟨by linarith, by linarith⟩
  have hc : Real.cos (3 * π / 4) = -(Real.sqrt 2 / 2) := by
    rw [show (3 * π / 4 : ℝ) = π - π / 4 by ring, Real.cos_pi_sub, Real.cos_pi_div_four]
  have hs : Real.sin (3 * π / 4) = Real.sqrt 2 / 2 := by
    rw [show (3 * π / 4 : ℝ) = π - π / 4 by ring, Real.sin_pi_sub, Real.sin_pi_div_four]
  have h := atan2_mul_cos_sin ha hθ
  rw [hc, hs] at h
  have e1 : Real.sqrt 2 / 2 * (Real.sqrt 2 / 2) = 1 / 2 := by
    rw [div_mul_div_comm, sqrt_two_mul_self]
    norm_num
  rw [e1, show Real.sqrt 2 / 2 * -(Real.sqrt 2 / 2) = -(1 / 2) by rw [mul_neg, e1]] at h
  exact h

/-- The unit quaternion `[-1/2, 1/2, -1/2, -1/2]` sits at the north-pole
lock with `atan2(x, w) = 3π/4`, so the singular branch returns yaw
`3π/2 > π`. -/
lemma quaternion_to_euler_q2 :
    quaternion_to_euler ⟨-(1 / 2), 1 / 2, -(1 / 2), -(1 / 2)⟩ =
      ⟨0, π / 2, 3 * π / 2⟩ := by
  have hn : quatNorm ⟨-(1 / 2), 1 / 2, -(1 / 2), -(1 / 2)⟩ = 1 := by
    rw [quatNorm]
    norm_num
  have hq : qnormalized ⟨-(1 / 2), 1 / 2, -(1 / 2), -(1 / 2)⟩ =
      ⟨-(1 / 2), 1 / 2, -(1 / 2), -(1 / 2)⟩ := by
    rw [qnormalized, hn]
    norm_num
  have ht : t0c ⟨-(1 / 2), 1 / 2, -(1 / 2), -(1 / 2)⟩ = 1 := by
    rw [t0c, t0raw, hq]
    show np_clip (2 * (-(1 / 2) * -(1 / 2) - -(1 / 2) * (1 / 2))) (-1) 1 = 1
    rw [show (2 : ℝ) * (-(1 / 2) * -(1 / 2) - -(1 / 2) * (1 / 2)) = 1 by norm_num]
    exact np_clip_of_mem (by norm_num) le_rfl
  have hb : |t0c ⟨-(1 / 2), 1 / 2, -(1 / 2), -(1 / 2)⟩| > 1 - SINGULARITY_TOLERANCE := by
    rw [ht, SINGULARITY_TOLERANCE]
    norm_num
  have hsg : np_sign 1 = 1 := by
    rw [np_sign, if_neg (by norm_num), if_pos (by norm_num)]
  rw [quaternion_to_euler_singular hb, ht, hq, hsg]
  show (⟨0, π / 2 * 1, 2 * atan2 (1 / 2) (-(1 / 2))⟩ : EulerAngles) = ⟨0, π / 2, 3 * π / 2⟩
  rw [atan2_half_neg_half, EulerAngles.mk.injEq]
  exact ⟨rfl, by ring, by ring⟩

/-- **C2, counterexample.** The claim says roll and yaw always lie in
`(-π, π]`, the only exception being roll in the singular branch.  But the
singular-branch yaw is `2·atan2(x, w) ∈ (-2π, 2π]`: on the nonzero lock
quaternion `[-1/2, 1/2, -1/2, -1/2]` the returned yaw is `3π/2`, strictly
greater than `π`. -/
theorem c2_counterexample :
    (⟨-(1 / 2), 1 / 2, -(1 / 2), -(1 / 2)⟩ : Quat) ≠ ⟨0, 0, 0, 0⟩ ∧
    (quaternion_to_euler ⟨-(1 / 2), 1 / 2, -(1 / 2), -(1 / 2)⟩).yaw = 3 * π / 2 ∧
    π < (quaternion_to_euler ⟨-(1 / 2), 1 / 2, -(1 / 2), -(1 / 2)⟩).yaw := by
  have hy : (quaternion_to_euler ⟨-(1 / 2), 1 / 2, -(1 / 2), -(1 / 2)⟩).yaw = 3 * π / 2 := by
    rw [quaternion_to_euler_q2]
  refine ⟨?_, hy, ?_⟩
  · intro h
    have := congrArg Quat.x h
    norm_num at this
  · rw [hy]
    have := Real.pi_pos
    linarith

/-- **C2, amended.** For every nonzero input quaternion: the returned pitch
always lies in `[-π/2, π/2]`; in the singular branch the roll is exactly
`0` and the yaw lies in `(-2π, 2π]` (twice the `atan2` range — not in
`(-π, π]` as claimed); in the regular branch roll and yaw do lie in the
`atan2` range `(-π, π]`. -/
theorem c2_output_ranges (q : Quat) (_hq : q ≠ ⟨0, 0, 0, 0⟩) :
    (quaternion_to_euler q).pitch ∈ Set.Icc (-(π / 2)) (π / 2) ∧
    (|t0c q| > 1 - SINGULARITY_TOLERANCE →
      (quaternion_to_euler q).roll = 0 ∧
      -(2 * π) < (quaternion_to_euler q).yaw ∧ (quaternion_to_euler q).yaw ≤ 2 * π) ∧
    (¬ |t0c q| > 1 - SINGULARITY_TOLERANCE →
      (quaternion_to_euler q).roll ∈ Set.Ioc (-π) π ∧
      (quaternion_to_euler q).yaw ∈ Set.Ioc (-π) π) := by
  have hpi := Real.pi_pos
  by_cases hb : |t0c q| > 1 - SINGULARITY_TOLERANCE
  · rw [quaternion_to_euler_singular hb]
    have hsign : np_sign (t0c q) = 1 ∨ np_sign (t0c q) = -1 := by
      rcases lt_trichotomy (t0c q) 0 with h | h | h
      · right
        rw [np_sign, if_pos h]
      · exfalso
        rw [h, abs_zero, SINGULARITY_TOLERANCE] at hb
        norm_num at hb
      · left
        rw [np_sign, if_neg (not_lt.mpr h.le), if_pos h]
    obtain ⟨ha1, ha2⟩ := Set.mem_Ioc.mp (atan2_mem_Ioc (qnormalized q).x (qnormalized q).w)
    refine ⟨?_, fun _ => ⟨rfl, by linarith, by linarith⟩, fun h => absurd hb h⟩
    rcases hsign with h | h <;> rw [h]
    · exact ⟨by linarith, by linarith⟩
    · exact ⟨by linarith, by linarith⟩
  · rw [quaternion_to_euler, if_neg hb]
    exact ⟨Real.arcsin_mem_Icc _, fun h => absurd h hb,
      fun _ => ⟨atan2_mem_Ioc _ _, atan2_mem_Ioc _ _⟩⟩

/-- Witness for C2: the pitch range at the concrete quaternion
`[1, 0, 0, 0]`. -/
theorem c2_output_ranges_witness :
    (quaternion_to_euler ⟨1, 0, 0, 0⟩).pitch ∈ Set.Icc (-(π / 2)) (π / 2) :=
  (c2_output_ranges ⟨1, 0, 0, 0⟩ (fun h => one_ne_zero (congrArg Quat.w h))).1
